import Mathlib

/-!
A shallow embedding of the question-set allocation core of this repository:
the Redis-backed `QueueManager` (pool queues, per-user allocation ledger,
cache eviction), the set builder (`generateSetsForCategory`,
`storeSetsForCategory`) and the batch question ingest (`storeQuestions`).

Redis hashes are modelled as association lists with in-place update
semantics (`hSet` replaces the first matching key or appends); Redis lists
are modelled as Lean lists with the head at index 0, so `lPush` prepends.
JS `Date` instants are modelled as a calendar month index plus an offset
within the month; `setMonth (getMonth () - k)` is then an exact shift of
the month index (the JS day-overflow normalization at month ends is outside
the model: every offset is assumed valid in every month).
-/

namespace GenQ

abbrev SetId := String
abbrev CatId := String

/-- A JS `Date` instant: calendar month index (`year * 12 + month`) and an
offset (day and time of day) within that month, compared lexicographically. -/
structure Instant where
  month : Int
  sub : Nat
deriving DecidableEq, Repr

/-- JS `dateA < dateB` (numeric comparison of epoch values) under the
month-plus-offset representation. -/
def Instant.ltb (a b : Instant) : Bool :=
  if a.month < b.month then true
  else if a.month = b.month then decide (a.sub < b.sub)
  else false

/-- `d.setMonth(d.getMonth() - k)`: shift the calendar month back by `k`
whole months, keeping the offset within the month. -/
def Instant.subMonths (t : Instant) (k : Nat) : Instant :=
  { t with month := t.month - k }

/-- Redis `HSET hash k v`: replace the value at the first occurrence of
field `k`, or append the field if absent. -/
def hSet {κ ν : Type} [DecidableEq κ] : List (κ × ν) → κ → ν → List (κ × ν)
  | [], k, v => [(k, v)]
  | (k', v') :: rest, k, v =>
      if k' = k then (k, v) :: rest else (k', v') :: hSet rest k v

/-- Redis `HGET hash k`. -/
def hGet {κ ν : Type} [DecidableEq κ] : List (κ × ν) → κ → Option ν
  | [], _ => none
  | (k', v') :: rest, k => if k' = k then some v' else hGet rest k

/-- Redis `HDEL hash k`. -/
def hDel {κ ν : Type} [DecidableEq κ] (m : List (κ × ν)) (k : κ) : List (κ × ν) :=
  m.filter (fun kv => decide (kv.1 ≠ k))

/-- Redis `HDEL hash k₁ … kₙ` (multi-field delete). -/
def hDelKeys {κ ν : Type} [DecidableEq κ] (m : List (κ × ν)) (ks : List κ) : List (κ × ν) :=
  m.filter (fun kv => decide (kv.1 ∉ ks))

/-- A value stored in a Redis hash field of the user metadata: the source
stores strings (set ids, ISO timestamps, stringified counters). -/
inductive MetaVal
  | str (s : String)
  | time (t : Instant)
  | nat (n : Nat)
deriving DecidableEq, Repr

/-- The per-user slice of Redis state: the `user_allocations:<userId>` hash
(category → JSON list of set ids), the `user_allocations:<userId>:timestamps`
hash (`<categoryId>:<setId>` → ISO timestamp) and the
`user_allocations:meta:<userId>` hash. -/
structure UserState where
  allocations : List (CatId × List SetId)
  timestamps : List ((CatId × SetId) × Instant)
  meta : List (String × MetaVal)
deriving DecidableEq, Repr

/-- `QueueManager.CACHE_CONFIG` (runtime-mutable). -/
structure CacheConfig where
  maxSetsPerCategory : Nat
  maxAgeMonths : Nat
deriving DecidableEq, Repr

/-- `QueueManager.getUserCategoryAllocations`: parse the JSON list stored at
field `categoryId`, or `[]` when the field is absent. -/
def getUserCategoryAllocations (st : UserState) (c : CatId) : List SetId :=
  (hGet st.allocations c).getD []

/-- `QueueManager.addUserCategoryAllocationWithTimestamp`: append `s` to the
category list if not already allocated, record its `assignedAt` timestamp and
update the per-user metadata; a no-op when `s` is already in the list. -/
def addUserCategoryAllocationWithTimestamp (now : Instant) (st : UserState)
    (c : CatId) (s : SetId) : UserState :=
  let currentAllocations := getUserCategoryAllocations st c
  if s ∈ currentAllocations then st
  else
    { allocations := hSet st.allocations c (currentAllocations ++ [s])
      timestamps := hSet st.timestamps (c, s) now
      meta :=
        hSet (hSet (hSet (hSet st.meta "last_updated" (.time now))
          (c ++ "_count") (.nat (currentAllocations.length + 1)))
          (c ++ "_last_allocated") (.str s))
          (c ++ "_last_updated") (.time now) }

/-- Result record of `applyCacheEvictionWithTimestamps`. -/
structure EvictionResults where
  removedCount : Nat
  removedSets : List SetId
  reason : List String
deriving DecidableEq, Repr

/-- The reason string pushed by eviction rule 1. -/
def capReason (cfg : CacheConfig) : String :=
  "Exceeded maximum " ++ toString cfg.maxSetsPerCategory ++ " sets per category"

/-- The reason string pushed by eviction rule 2. -/
def ageReason (cfg : CacheConfig) : String :=
  "Sets older than " ++ toString cfg.maxAgeMonths ++ " months"

/-- Whether set `s` of category `c` has a stored `assignedAt` timestamp
strictly earlier than `horizon` (sets without a timestamp are never old). -/
def isOldAt (st : UserState) (c : CatId) (horizon : Instant) (s : SetId) : Bool :=
  match hGet st.timestamps (c, s) with
  | some t => t.ltb horizon
  | none => false

/-- One step of eviction rule 2: skip sets already marked, mark a set whose
timestamp is older than the horizon and record the age reason once. -/
def ageStep (st : UserState) (c : CatId) (horizon : Instant) (cfg : CacheConfig)
    (acc : List SetId × List String) (s : SetId) : List SetId × List String :=
  if s ∈ acc.1 then acc
  else if isOldAt st c horizon s then
    (acc.1 ++ [s],
     if ageReason cfg ∈ acc.2 then acc.2 else acc.2 ++ [ageReason cfg])
  else acc

/-- Eviction rule 1 ("count cap") over the current list: when
`n > maxSetsPerCategory`, the first `n - maxSetsPerCategory` elements are
marked for removal with the cap reason; otherwise nothing starts marked. -/
def evictStart (cfg : CacheConfig) (currentAllocations : List SetId) :
    List SetId × List String :=
  if currentAllocations.length > cfg.maxSetsPerCategory then
    (currentAllocations.take (currentAllocations.length - cfg.maxSetsPerCategory),
     [capReason cfg])
  else ([], [])

/-- Rules 1 and 2 combined: the marked sets (and accumulated reasons) after
the rule-2 loop over the current list. -/
def evictMarked (cfg : CacheConfig) (now : Instant) (st : UserState) (c : CatId) :
    List SetId × List String :=
  let currentAllocations := getUserCategoryAllocations st c
  currentAllocations.foldl (ageStep st c (now.subMonths cfg.maxAgeMonths) cfg)
    (evictStart cfg currentAllocations)

/-- The `setsToRemove` list computed by `applyCacheEvictionWithTimestamps`. -/
def setsToRemove (cfg : CacheConfig) (now : Instant) (st : UserState) (c : CatId) :
    List SetId :=
  (evictMarked cfg now st c).1

/-- The `remainingSets` list computed by `applyCacheEvictionWithTimestamps`. -/
def remainingSets (cfg : CacheConfig) (now : Instant) (st : UserState) (c : CatId) :
    List SetId :=
  (getUserCategoryAllocations st c).filter
    (fun s => decide (s ∉ setsToRemove cfg now st c))

/-- `QueueManager.applyCacheEvictionWithTimestamps`: rule 1 marks the first
`n - maxSetsPerCategory` sets when `n > maxSetsPerCategory`; rule 2 marks
unmarked sets whose individual timestamp is older than `now` shifted back by
`maxAgeMonths` whole months; marked sets are removed from the list, their
timestamps deleted, the category field deleted when nothing remains, and the
eviction counters updated. -/
def applyCacheEvictionWithTimestamps (cfg : CacheConfig) (now : Instant)
    (st : UserState) (c : CatId) : EvictionResults × UserState :=
  let currentAllocations := getUserCategoryAllocations st c
  if currentAllocations.length = 0 then
    ({ removedCount := 0, removedSets := [], reason := [] }, st)
  else
    let toRemove := setsToRemove cfg now st c
    if toRemove.isEmpty then
      ({ removedCount := 0, removedSets := [], reason := (evictMarked cfg now st c).2 }, st)
    else
      let remaining := remainingSets cfg now st c
      let allocations' :=
        if remaining.length > 0 then hSet st.allocations c remaining
        else hDel st.allocations c
      let timestamps' :=
        hDelKeys st.timestamps (toRemove.map (fun s => (c, s)))
      let prevEvicted :=
        match hGet st.meta (c ++ "_evicted_count") with
        | some (.nat n) => n
        | _ => 0
      let meta' :=
        hSet (hSet (hSet st.meta
          (c ++ "_count") (.nat remaining.length))
          (c ++ "_evicted_at") (.time now))
          (c ++ "_evicted_count") (.nat (prevEvicted + toRemove.length))
      ({ removedCount := toRemove.length, removedSets := toRemove,
         reason := (evictMarked cfg now st c).2 },
       { allocations := allocations', timestamps := timestamps', meta := meta' })

/-- `QueueManager.clearUserAllocations`: `DEL` on the allocations hash and the
metadata hash. The `user_allocations:<userId>:timestamps` hash is not deleted. -/
def clearUserAllocations (st : UserState) : UserState :=
  { allocations := [], timestamps := st.timestamps, meta := [] }

/-- Metadata kept at `question_sets:meta:<categoryId>`. -/
structure PoolMeta where
  total_available : Nat
  last_updated : Instant
  last_batch_size : Nat
deriving DecidableEq, Repr

/-- The pool slice of Redis state: per category the stored Redis list
(head at index 0) and its metadata hash. -/
structure PoolState where
  queues : List (CatId × List SetId)
  meta : List (CatId × PoolMeta)
deriving DecidableEq, Repr

/-- Redis `LPUSH key x₁ … xₙ`: each value is prepended in turn, so the last
value pushed ends up at the head of the stored list. -/
def lPush (l : List SetId) (xs : List SetId) : List SetId :=
  xs.foldl (fun acc x => x :: acc) l

/-- The stored Redis list for a category (what `LRANGE key 0 -1` returns),
head first. -/
def poolQueue (p : PoolState) (c : CatId) : List SetId :=
  (hGet p.queues c).getD []

/-- `QueueManager.addSetsToQueue`: `LPUSH` the batch onto the category queue
and refresh the metadata hash. -/
def addSetsToQueue (now : Instant) (p : PoolState) (c : CatId)
    (setIds : List SetId) : PoolState :=
  let q := lPush (poolQueue p c) setIds
  { queues := hSet p.queues c q
    meta := hSet p.meta c
      { total_available := q.length, last_updated := now,
        last_batch_size := setIds.length } }

/-- An empty pool (no queues, no metadata). -/
def emptyPool : PoolState := { queues := [], meta := [] }

/-- The Redis state touched by one allocation call: the pool and the
requesting user's ledger slice. -/
structure GlobalState where
  pool : PoolState
  user : UserState
deriving DecidableEq, Repr

/-- `QueueManager.getNextAvailableSetForUser`: run eviction, re-read the
user's category list, `LRANGE` the full category queue and return the first
stored element not already allocated to the user, recording it with a
timestamp; `none` when every stored element is already allocated. -/
def getNextAvailableSetForUser (cfg : CacheConfig) (now : Instant)
    (gst : GlobalState) (c : CatId) : Option SetId × GlobalState :=
  let ev := applyCacheEvictionWithTimestamps cfg now gst.user c
  let userAllocations := getUserCategoryAllocations ev.2 c
  let availableSets := poolQueue gst.pool c
  match availableSets.find? (fun s => decide (s ∉ userAllocations)) with
  | some nextSet =>
      (some nextSet,
       { pool := gst.pool
         user := addUserCategoryAllocationWithTimestamp now ev.2 c nextSet })
  | none => (none, { pool := gst.pool, user := ev.2 })

/-! ## Set builder (`generate-questions-sets.js`) -/

/-- A question as read back from the questions table: its id and content hash
(the other payload fields play no role in set building). -/
structure Question where
  id : String
  hash : String
deriving DecidableEq, Repr

/-- `generateSetsForCategory`: slice `questions` into `numSets` contiguous
chunks of `questionsPerSet`, keeping only full chunks
(`questions.slice(i * per, (i + 1) * per)` with a length guard). -/
def generateSetsForCategory (questions : List Question) (numSets questionsPerSet : Nat) :
    List (List Question) :=
  (List.range numSets).foldl
    (fun sets setIndex =>
      let set := (questions.drop (setIndex * questionsPerSet)).take questionsPerSet
      if set.length = questionsPerSet then sets ++ [set] else sets)
    []

/-- A row of the `question_sets` table as written by `storeSetsForCategory`. -/
structure StoredSet where
  id : String
  category_id : CatId
  question_keys : List (String × String)
  question_ids : List String
  created_at : Instant
  offset : Option String
deriving DecidableEq, Repr

/-- `storeSetsForCategory`: compute the batch watermark as
`allQuestionsUsed.map(q => q.id).sort().pop()` (the lexicographically last id,
`none` when the batch is empty) and persist each set with a fresh id
(modelled by `uuid` applied to the set index) and that shared `offset`. -/
def storeSetsForCategory (uuid : Nat → String) (now : Instant) (c : CatId)
    (sets : List (List Question)) (allQuestionsUsed : List Question) : List StoredSet :=
  let lastQuestionUsed :=
    ((allQuestionsUsed.map Question.id).insertionSort (· ≤ ·)).getLast?
  sets.enum.map (fun e =>
    { id := uuid e.1
      category_id := c
      question_keys := e.2.map (fun q => (q.id, q.hash))
      question_ids := e.2.map Question.id
      created_at := now
      offset := lastQuestionUsed })

/-- The per-category body of `generateQuestionSets`: cap the number of sets at
`⌊|questions| / questionsPerSet⌋`, skip the category entirely when there are
not enough questions for one set, otherwise generate and store the sets with
`allQuestionsUsed` being the first `setsToGenerate * questionsPerSet`
questions. -/
def generateQuestionSetsForCategory (uuid : Nat → String) (now : Instant) (c : CatId)
    (questions : List Question) (numSetsPerCategory questionsPerSet : Nat) :
    List StoredSet :=
  let maxPossibleSets := questions.length / questionsPerSet
  let setsToGenerate := min numSetsPerCategory maxPossibleSets
  if questions.length < questionsPerSet then []
  else
    let sets := generateSetsForCategory questions setsToGenerate questionsPerSet
    let allQuestionsUsed := questions.take (setsToGenerate * questionsPerSet)
    storeSetsForCategory uuid now c sets allQuestionsUsed

/-! ## Batch question ingest (`question-generation/storage.js`) -/

/-- An input question for ingest: an optional pre-existing id and the title
the content hash is computed from. -/
structure RawQuestion where
  id : Option String
  title : String
deriving DecidableEq, Repr

/-- A question prepared for storage by `prepareQuestionForStorage`. -/
structure PreparedQuestion where
  id : String
  title : String
  hash : String
  createdAt : Instant
deriving DecidableEq, Repr

/-- `prepareQuestionForStorage`: attach the content hash of the title
(`hashFn` stands for SHA-256; only equality of hashes matters to the code),
a fresh id when none is present (`uuid` applied to the item index), and the
creation timestamp. -/
def prepareQuestionForStorage (hashFn : String → String) (uuid : Nat → String)
    (now : Instant) (idx : Nat) (q : RawQuestion) : PreparedQuestion :=
  { id := q.id.getD (uuid idx)
    title := q.title
    hash := hashFn q.title
    createdAt := now }

/-- Result record of `storeQuestions`. -/
structure StoreQuestionsResult where
  total : Nat
  stored : Nat
  skipped : Nat
  failed : Nat
deriving DecidableEq, Repr

/-- `storeQuestions` (success path): prepare every question, check each
prepared hash against the hashes already in the store (all checks run before
any write), count matches as skipped, bulk-write the rest and report
`batchPutItems`'s processed count — the number of items written — as
`stored`. -/
def storeQuestions (hashFn : String → String) (uuid : Nat → String) (now : Instant)
    (storeHashes : List String) (questions : List RawQuestion) : StoreQuestionsResult :=
  let preparedQuestions :=
    questions.enum.map (fun e => prepareQuestionForStorage hashFn uuid now e.1 e.2)
  let uniqueQuestions :=
    preparedQuestions.filter (fun q => decide (q.hash ∉ storeHashes))
  let skippedCount := preparedQuestions.length - uniqueQuestions.length
  { total := questions.length
    stored := uniqueQuestions.length
    skipped := skippedCount
    failed := questions.length - uniqueQuestions.length - skippedCount }

/-- All (category, set-id) pairs listed in an allocation hash, with
multiplicity. -/
def pairsList (l : List (CatId × List SetId)) : List (CatId × SetId) :=
  (l.map (fun e => e.2.map (fun s => (e.1, s)))).flatten

/-- All (category, set-id) pairs listed in a user's allocation hash, with
multiplicity. -/
def allocPairs (st : UserState) : List (CatId × SetId) :=
  pairsList st.allocations

/-- The ledger/timestamp correspondence invariant of the spec: category keys
are unique, no category list repeats a set-id, and the `assignedAt` keys are
in one-to-one correspondence with the listed (category, set-id) pairs. -/
def TsCorr (st : UserState) : Prop :=
  (st.allocations.map Prod.fst).Nodup
  ∧ (∀ e ∈ st.allocations, e.2.Nodup)
  ∧ (st.timestamps.map Prod.fst).Perm (allocPairs st)

instance (st : UserState) : Decidable (TsCorr st) := by
  unfold TsCorr
  infer_instance

/-! ## Association-list and Redis-list lemmas -/

theorem hGet_hSet_self {κ ν : Type} [DecidableEq κ] (m : List (κ × ν)) (k : κ) (v : ν) :
    hGet (hSet m k v) k = some v := by
  induction m with
  | nil => simp [hSet, hGet]
  | cons p rest ih =>
      obtain ⟨k', v'⟩ := p
      by_cases h : k' = k <;> simp [hSet, hGet, h, ih]

theorem hGet_hSet_ne {κ ν : Type} [DecidableEq κ] (m : List (κ × ν)) {k₁ k₂ : κ} (v : ν)
    (h : k₂ ≠ k₁) : hGet (hSet m k₁ v) k₂ = hGet m k₂ := by
  induction m with
  | nil => simp [hSet, hGet, h, Ne.symm h]
  | cons p rest ih =>
      obtain ⟨k', v'⟩ := p
      by_cases h1 : k' = k₁
      · subst h1
        simp [hSet, hGet, h, Ne.symm h]
      · by_cases h2 : k' = k₂ <;> simp [hSet, hGet, h, h1, h2, ih]

theorem hGet_filter_of_false {κ ν : Type} [DecidableEq κ] (f : κ × ν → Bool) (k : κ)
    (m : List (κ × ν)) (h : ∀ v, f (k, v) = false) :
    hGet (m.filter f) k = none := by
  induction m with
  | nil => rfl
  | cons p rest ih =>
      obtain ⟨k', v'⟩ := p
      by_cases hk : k' = k
      · subst hk
        simp [List.filter_cons, h v', ih]
      · by_cases hf : f (k', v') = true <;>
          simp [List.filter_cons, hf, hGet, hk, ih]

theorem hGet_filter_of_true {κ ν : Type} [DecidableEq κ] (f : κ × ν → Bool) (k : κ)
    (m : List (κ × ν)) (h : ∀ v, f (k, v) = true) :
    hGet (m.filter f) k = hGet m k := by
  induction m with
  | nil => rfl
  | cons p rest ih =>
      obtain ⟨k', v'⟩ := p
      by_cases hk : k' = k
      · subst hk
        simp [List.filter_cons, h v', hGet]
      · by_cases hf : f (k', v') = true <;>
          simp [List.filter_cons, hf, hGet, hk, ih]

theorem hGet_hDel_self {κ ν : Type} [DecidableEq κ] (m : List (κ × ν)) (k : κ) :
    hGet (hDel m k) k = none :=
  hGet_filter_of_false _ _ m (fun v => by simp)

theorem hGet_hDelKeys_mem {κ ν : Type} [DecidableEq κ] (m : List (κ × ν)) {ks : List κ}
    {k : κ} (h : k ∈ ks) : hGet (hDelKeys m ks) k = none :=
  hGet_filter_of_false _ _ m (fun v => by simp [h])

theorem hGet_hDelKeys_not_mem {κ ν : Type} [DecidableEq κ] (m : List (κ × ν)) {ks : List κ}
    {k : κ} (h : k ∉ ks) : hGet (hDelKeys m ks) k = hGet m k :=
  hGet_filter_of_true _ _ m (fun v => by simp [h])

theorem lPush_eq (l xs : List SetId) : lPush l xs = xs.reverse ++ l := by
  induction xs generalizing l with
  | nil => rfl
  | cons x xs ih =>
      have hstep : lPush l (x :: xs) = lPush (x :: l) xs := rfl
      rw [hstep, ih]
      simp

theorem poolQueue_addSetsToQueue (now : Instant) (p : PoolState) (c : CatId)
    (b : List SetId) : poolQueue (addSetsToQueue now p c b) c = b.reverse ++ poolQueue p c := by
  simp [addSetsToQueue, poolQueue, hGet_hSet_self, lPush_eq]

theorem poolQueue_foldl_addSetsToQueue (now : Instant) (c : CatId)
    (batches : List (List SetId)) (p : PoolState) :
    poolQueue (batches.foldl (fun p' b => addSetsToQueue now p' c b) p) c
      = (batches.flatten).reverse ++ poolQueue p c := by
  induction batches generalizing p with
  | nil => simp
  | cons b bs ih => simp [ih, poolQueue_addSetsToQueue, List.reverse_append]

/-! ## Eviction characterization lemmas -/

theorem foldl_ageStep_fst_prefix (st : UserState) (c : CatId) (h : Instant)
    (cfg : CacheConfig) (l : List SetId) (acc : List SetId × List String) :
    ∃ ext, (l.foldl (ageStep st c h cfg) acc).1 = acc.1 ++ ext := by
  induction l generalizing acc with
  | nil => exact ⟨[], by simp⟩
  | cons s t ih =>
      rw [List.foldl_cons]
      obtain ⟨ext, hext⟩ := ih (ageStep st c h cfg acc s)
      by_cases h1 : s ∈ acc.1
      · exact ⟨ext, by simpa [ageStep, h1] using hext⟩
      · by_cases h2 : isOldAt st c h s = true
        · refine ⟨s :: ext, ?_⟩
          rw [hext]
          have hstep : (ageStep st c h cfg acc s).1 = acc.1 ++ [s] := by
            simp [ageStep, h1, h2]
          rw [hstep]
          simp
        · exact ⟨ext, by simpa [ageStep, h1, h2] using hext⟩

theorem foldl_ageStep_fst_eq (st : UserState) (c : CatId) (h : Instant)
    (cfg : CacheConfig) (l : List SetId) (acc : List SetId × List String)
    (base : List SetId) (hnd : l.Nodup) (hmem : ∀ x ∈ l, (x ∈ acc.1 ↔ x ∈ base)) :
    (l.foldl (ageStep st c h cfg) acc).1
      = acc.1 ++ l.filter (fun x => decide (x ∉ base) && isOldAt st c h x) := by
  induction l generalizing acc with
  | nil => simp
  | cons s t ih =>
      rw [List.foldl_cons]
      have hhead := hmem s (by simp)
      have hs_t : s ∉ t := (List.nodup_cons.mp hnd).1
      by_cases h1 : s ∈ acc.1
      · have hsb : s ∈ base := hhead.mp h1
        have hstep : ageStep st c h cfg acc s = acc := by simp [ageStep, h1]
        rw [hstep, ih acc (List.nodup_cons.mp hnd).2
          (fun x hx => hmem x (List.mem_cons_of_mem _ hx))]
        simp [List.filter_cons, hsb]
      · have hsb : s ∉ base := fun hb => h1 (hhead.mpr hb)
        by_cases h2 : isOldAt st c h s = true
        · have hstep : (ageStep st c h cfg acc s).1 = acc.1 ++ [s] := by
            simp [ageStep, h1, h2]
          have hmem' : ∀ x ∈ t, (x ∈ (ageStep st c h cfg acc s).1 ↔ x ∈ base) := by
            intro x hx
            have hxs : x ≠ s := fun he => hs_t (he ▸ hx)
            rw [hstep]
            simp only [List.mem_append, List.mem_singleton, hxs, or_false]
            exact hmem x (List.mem_cons_of_mem _ hx)
          rw [ih (ageStep st c h cfg acc s) (List.nodup_cons.mp hnd).2 hmem', hstep]
          simp [List.filter_cons, hsb, h2]
        · have hstep : ageStep st c h cfg acc s = acc := by simp [ageStep, h1, h2]
          rw [hstep, ih acc (List.nodup_cons.mp hnd).2
            (fun x hx => hmem x (List.mem_cons_of_mem _ hx))]
          simp [List.filter_cons, hsb, h2]

theorem setsToRemove_eq (cfg : CacheConfig) (now : Instant) (st : UserState)
    (c : CatId) (hnd : (getUserCategoryAllocations st c).Nodup) :
    setsToRemove cfg now st c
      = (evictStart cfg (getUserCategoryAllocations st c)).1
        ++ (getUserCategoryAllocations st c).filter
             (fun x => decide (x ∉ (evictStart cfg (getUserCategoryAllocations st c)).1)
                       && isOldAt st c (now.subMonths cfg.maxAgeMonths) x) :=
  foldl_ageStep_fst_eq st c _ cfg _ _ _ hnd (fun _ _ => Iff.rfl)

theorem setsToRemove_prefix (cfg : CacheConfig) (now : Instant) (st : UserState)
    (c : CatId) :
    ∃ ext, setsToRemove cfg now st c
      = (evictStart cfg (getUserCategoryAllocations st c)).1 ++ ext :=
  foldl_ageStep_fst_prefix st c _ cfg _ _

theorem remainingSets_length_le (cfg : CacheConfig) (now : Instant) (st : UserState)
    (c : CatId) :
    (remainingSets cfg now st c).length ≤ cfg.maxSetsPerCategory := by
  by_cases hcap :
      (getUserCategoryAllocations st c).length > cfg.maxSetsPerCategory
  · obtain ⟨ext, hx⟩ := setsToRemove_prefix cfg now st c
    have hstart : (evictStart cfg (getUserCategoryAllocations st c)).1
        = (getUserCategoryAllocations st c).take
            ((getUserCategoryAllocations st c).length - cfg.maxSetsPerCategory) := by
      simp [evictStart, hcap]
    have hmono :
        (remainingSets cfg now st c).length
          ≤ ((getUserCategoryAllocations st c).filter
              (fun s => decide (s ∉ (evictStart cfg (getUserCategoryAllocations st c)).1))).length := by
      apply List.Sublist.length_le
      apply List.monotone_filter_right
      intro a ha
      simp only [decide_eq_true_eq] at ha ⊢
      intro hmem
      exact ha (hx ▸ List.mem_append_left _ hmem)
    have hfilter :
        ((getUserCategoryAllocations st c).filter
            (fun s => decide (s ∉ (evictStart cfg (getUserCategoryAllocations st c)).1))).length
          ≤ cfg.maxSetsPerCategory := by
      rw [hstart]
      set cur := getUserCategoryAllocations st c with hcur
      set k := cur.length - cfg.maxSetsPerCategory with hk
      have h1 : (cur.take k).filter (fun s => decide (s ∉ cur.take k)) = [] := by
        rw [List.filter_eq_nil_iff]
        intro a ha
        simp [ha]
      have hsplit : List.filter (fun s => decide (s ∉ cur.take k)) cur
          = List.filter (fun s => decide (s ∉ cur.take k)) (cur.take k)
            ++ List.filter (fun s => decide (s ∉ cur.take k)) (cur.drop k) := by
        rw [← List.filter_append, List.take_append_drop]
      rw [hsplit, h1, List.nil_append]
      calc ((cur.drop k).filter (fun s => decide (s ∉ cur.take k))).length
          ≤ (cur.drop k).length := List.length_filter_le _ _
        _ ≤ cfg.maxSetsPerCategory := by
            rw [List.length_drop]
            omega
    exact le_trans hmono hfilter
  · calc (remainingSets cfg now st c).length
        ≤ (getUserCategoryAllocations st c).length := List.length_filter_le _ _
      _ ≤ cfg.maxSetsPerCategory := by omega

theorem setsToRemove_ne_nil_of_over_cap (cfg : CacheConfig) (now : Instant)
    (st : UserState) (c : CatId)
    (hcap : (getUserCategoryAllocations st c).length > cfg.maxSetsPerCategory) :
    setsToRemove cfg now st c ≠ [] := by
  obtain ⟨ext, hx⟩ := setsToRemove_prefix cfg now st c
  have hstart : (evictStart cfg (getUserCategoryAllocations st c)).1
      = (getUserCategoryAllocations st c).take
          ((getUserCategoryAllocations st c).length - cfg.maxSetsPerCategory) := by
    simp [evictStart, hcap]
  intro hnil
  rw [hx, hstart] at hnil
  have := List.append_eq_nil.mp hnil
  have hlen := congrArg List.length this.1
  rw [List.length_take] at hlen
  simp at hlen
  omega

theorem evict_allocations_eq (cfg : CacheConfig) (now : Instant) (st : UserState)
    (c : CatId) :
    getUserCategoryAllocations (applyCacheEvictionWithTimestamps cfg now st c).2 c
      = (getUserCategoryAllocations st c).filter
          (fun s =>
            decide (s ∉ (applyCacheEvictionWithTimestamps cfg now st c).1.removedSets)) := by
  by_cases h0 : (getUserCategoryAllocations st c).length = 0
  · have hnil : getUserCategoryAllocations st c = [] := List.length_eq_zero.mp h0
    simp [applyCacheEvictionWithTimestamps, h0, hnil]
  · by_cases he : (setsToRemove cfg now st c).isEmpty
    · simp [applyCacheEvictionWithTimestamps, h0, he, List.filter_eq_self]
    · by_cases hr : (remainingSets cfg now st c).length > 0
      · simp only [applyCacheEvictionWithTimestamps, h0, he, hr, if_false, if_true,
          if_neg h0]
        simp [getUserCategoryAllocations, hGet_hSet_self, remainingSets]
      · have hrnil : remainingSets cfg now st c = [] := by
          cases hq : remainingSets cfg now st c with
          | nil => rfl
          | cons a l => rw [hq] at hr; simp at hr
        simp only [applyCacheEvictionWithTimestamps, h0, he, hr, if_neg h0]
        simp only [Bool.false_eq_true, if_false, gt_iff_lt]
        simp only [getUserCategoryAllocations, hGet_hDel_self, Option.getD_none]
        exact (by simpa [remainingSets, getUserCategoryAllocations] using hrnil.symm)

theorem setsToRemove_nil_of_empty (cfg : CacheConfig) (now : Instant)
    (st : UserState) (c : CatId) (hnil : getUserCategoryAllocations st c = []) :
    setsToRemove cfg now st c = [] := by
  simp [setsToRemove, evictMarked, hnil, evictStart]

theorem evict_removedSets_eq_setsToRemove (cfg : CacheConfig) (now : Instant)
    (st : UserState) (c : CatId) :
    (applyCacheEvictionWithTimestamps cfg now st c).1.removedSets
      = setsToRemove cfg now st c := by
  by_cases h0 : (getUserCategoryAllocations st c).length = 0
  · have hnil := List.length_eq_zero.mp h0
    rw [setsToRemove_nil_of_empty cfg now st c hnil]
    simp [applyCacheEvictionWithTimestamps, h0]
  · by_cases he : (setsToRemove cfg now st c).isEmpty
    · have hnil : setsToRemove cfg now st c = [] := List.isEmpty_iff.mp he
      simp [applyCacheEvictionWithTimestamps, h0, he, hnil]
    · simp [applyCacheEvictionWithTimestamps, h0, he]

theorem evict_timestamps_eq (cfg : CacheConfig) (now : Instant)
    (st : UserState) (c : CatId) :
    ((applyCacheEvictionWithTimestamps cfg now st c).2).timestamps
      = hDelKeys st.timestamps ((setsToRemove cfg now st c).map (fun s => (c, s))) := by
  by_cases h0 : (getUserCategoryAllocations st c).length = 0
  · have hnil := List.length_eq_zero.mp h0
    rw [setsToRemove_nil_of_empty cfg now st c hnil]
    simp [applyCacheEvictionWithTimestamps, h0, hDelKeys]
  · by_cases he : (setsToRemove cfg now st c).isEmpty
    · have hnil : setsToRemove cfg now st c = [] := List.isEmpty_iff.mp he
      simp [applyCacheEvictionWithTimestamps, h0, he, hnil, hDelKeys]
    · by_cases hr : (remainingSets cfg now st c).length > 0 <;>
        simp [applyCacheEvictionWithTimestamps, h0, he, hr]

theorem evict_allocations_entry (cfg : CacheConfig) (now : Instant)
    (st : UserState) (c : CatId) (hne : setsToRemove cfg now st c ≠ []) :
    hGet ((applyCacheEvictionWithTimestamps cfg now st c).2).allocations c
      = if remainingSets cfg now st c = [] then none
        else some (remainingSets cfg now st c) := by
  have h0 : ¬ (getUserCategoryAllocations st c).length = 0 := by
    intro h0
    exact hne (setsToRemove_nil_of_empty cfg now st c (List.length_eq_zero.mp h0))
  have he : ¬ (setsToRemove cfg now st c).isEmpty := by
    simpa [List.isEmpty_iff] using hne
  by_cases hr : (remainingSets cfg now st c).length > 0
  · have hrne : ¬ remainingSets cfg now st c = [] := by
      intro h
      rw [h] at hr
      simp at hr
    simp only [applyCacheEvictionWithTimestamps, h0, he, hr, if_false, if_true,
      if_neg h0]
    simp [hGet_hSet_self, hrne]
  · have hrnil : remainingSets cfg now st c = [] := by
      cases hq : remainingSets cfg now st c with
      | nil => rfl
      | cons a l => rw [hq] at hr; simp at hr
    simp only [applyCacheEvictionWithTimestamps, h0, he, hr, if_neg h0]
    simp only [Bool.false_eq_true, if_false, gt_iff_lt]
    simp [hGet_hDel_self, hrnil]

theorem evict_allocations_length_le (cfg : CacheConfig) (now : Instant)
    (st : UserState) (c : CatId) :
    (getUserCategoryAllocations (applyCacheEvictionWithTimestamps cfg now st c).2 c).length
      ≤ cfg.maxSetsPerCategory := by
  by_cases h0 : (getUserCategoryAllocations st c).length = 0
  · have hnil : getUserCategoryAllocations st c = [] := List.length_eq_zero.mp h0
    simp [applyCacheEvictionWithTimestamps, h0, hnil]
  · by_cases he : (setsToRemove cfg now st c).isEmpty
    · have hle : (getUserCategoryAllocations st c).length ≤ cfg.maxSetsPerCategory := by
        by_contra hcap
        exact setsToRemove_ne_nil_of_over_cap cfg now st c (by omega)
          (List.isEmpty_iff.mp he)
      simp [applyCacheEvictionWithTimestamps, h0, he, hle]
    · by_cases hr : (remainingSets cfg now st c).length > 0
      · simp only [applyCacheEvictionWithTimestamps, h0, he, hr, if_false, if_true,
          if_neg h0]
        simpa [getUserCategoryAllocations, hGet_hSet_self]
          using remainingSets_length_le cfg now st c
      · simp only [applyCacheEvictionWithTimestamps, h0, he, hr, if_neg h0]
        simp only [Bool.false_eq_true, if_false, gt_iff_lt]
        simp [getUserCategoryAllocations, hGet_hDel_self]

theorem getUserCategoryAllocations_add (now : Instant) (st : UserState)
    (c : CatId) (s : SetId) :
    getUserCategoryAllocations (addUserCategoryAllocationWithTimestamp now st c s) c
      = if s ∈ getUserCategoryAllocations st c then getUserCategoryAllocations st c
        else getUserCategoryAllocations st c ++ [s] := by
  by_cases h : s ∈ getUserCategoryAllocations st c
  · simp only [addUserCategoryAllocationWithTimestamp]
    rw [if_pos h, if_pos h]
  · simp only [addUserCategoryAllocationWithTimestamp]
    rw [if_neg h, if_neg h]
    simp only [getUserCategoryAllocations]
    rw [hGet_hSet_self]
    rfl

theorem getUserCategoryAllocations_add_ne (now : Instant) (st : UserState)
    {c c' : CatId} (s : SetId) (h : c' ≠ c) :
    getUserCategoryAllocations (addUserCategoryAllocationWithTimestamp now st c s) c'
      = getUserCategoryAllocations st c' := by
  by_cases h1 : s ∈ getUserCategoryAllocations st c
  · simp only [addUserCategoryAllocationWithTimestamp]
    rw [if_pos h1]
  · simp only [addUserCategoryAllocationWithTimestamp]
    rw [if_neg h1]
    simp only [getUserCategoryAllocations]
    rw [hGet_hSet_ne _ _ h]

theorem add_noop_of_mem (now : Instant) (st : UserState) (c : CatId) (s : SetId)
    (h : s ∈ getUserCategoryAllocations st c) :
    addUserCategoryAllocationWithTimestamp now st c s = st := by
  simp only [addUserCategoryAllocationWithTimestamp]
  rw [if_pos h]

/-! ## Correspondence (ledger/timestamp) lemmas -/

theorem hGet_mem {κ ν : Type} [DecidableEq κ] {m : List (κ × ν)} {k : κ} {v : ν}
    (h : hGet m k = some v) : (k, v) ∈ m := by
  induction m with
  | nil => simp [hGet] at h
  | cons p rest ih =>
      obtain ⟨k', v'⟩ := p
      by_cases hk : k' = k
      · subst hk
        simp [hGet] at h
        simp [h]
      · simp only [hGet, if_neg hk] at h
        exact List.mem_cons_of_mem _ (ih h)

theorem mem_hSet {κ ν : Type} [DecidableEq κ] {m : List (κ × ν)} {k : κ} {v : ν}
    {e : κ × ν} (h : e ∈ hSet m k v) : e = (k, v) ∨ e ∈ m := by
  induction m with
  | nil => simpa [hSet] using h
  | cons p rest ih =>
      obtain ⟨k', v'⟩ := p
      by_cases hk : k' = k
      · subst hk
        simp only [hSet, if_pos rfl] at h
        rcases List.mem_cons.mp h with h1 | h1
        · exact Or.inl h1
        · exact Or.inr (List.mem_cons_of_mem _ h1)
      · simp only [hSet, if_neg hk] at h
        rcases List.mem_cons.mp h with h1 | h1
        · exact Or.inr (h1 ▸ List.mem_cons_self _ _)
        · rcases ih h1 with h2 | h2
          · exact Or.inl h2
          · exact Or.inr (List.mem_cons_of_mem _ h2)

theorem keys_hSet {κ ν : Type} [DecidableEq κ] (m : List (κ × ν)) (k : κ) (v : ν) :
    (hSet m k v).map Prod.fst
      = if k ∈ m.map Prod.fst then m.map Prod.fst else m.map Prod.fst ++ [k] := by
  induction m with
  | nil => simp [hSet]
  | cons p rest ih =>
      obtain ⟨k', v'⟩ := p
      by_cases hk : k' = k
      · subst hk
        simp [hSet]
      · simp only [hSet, if_neg hk, List.map_cons, ih]
        by_cases hmem : k ∈ rest.map Prod.fst <;>
          simp [hmem, Ne.symm hk, hk]

theorem hSet_append_of_not_mem {κ ν : Type} [DecidableEq κ] {m : List (κ × ν)}
    {k : κ} (v : ν) (h : k ∉ m.map Prod.fst) : hSet m k v = m ++ [(k, v)] := by
  induction m with
  | nil => rfl
  | cons p rest ih =>
      obtain ⟨k', v'⟩ := p
      have hk : k' ≠ k := by
        intro he
        exact h (by simp [he])
      have hrest : k ∉ rest.map Prod.fst := by
        intro hm
        exact h (by simp [hm])
      simp [hSet, hk, ih hrest]

theorem hDel_eq_self_of_not_mem {κ ν : Type} [DecidableEq κ] {m : List (κ × ν)}
    {k : κ} (h : k ∉ m.map Prod.fst) : hDel m k = m := by
  rw [hDel, List.filter_eq_self]
  intro kv hkv
  simp only [decide_eq_true_eq]
  intro he
  exact h (he ▸ List.mem_map_of_mem Prod.fst hkv)

theorem map_fst_hDel {κ ν : Type} [DecidableEq κ] (m : List (κ × ν)) (k : κ) :
    (hDel m k).map Prod.fst = (m.map Prod.fst).filter (fun p => decide (p ≠ k)) := by
  induction m with
  | nil => rfl
  | cons p rest ih =>
      obtain ⟨k', v'⟩ := p
      simp only [hDel, decide_not] at ih ⊢
      by_cases hq : k' = k <;> simp [List.filter_cons, hq, ih]

theorem map_fst_hDelKeys (m : List ((CatId × SetId) × Instant))
    (ks : List (CatId × SetId)) :
    (hDelKeys m ks).map Prod.fst = (m.map Prod.fst).filter (fun p => decide (p ∉ ks)) := by
  induction m with
  | nil => rfl
  | cons p rest ih =>
      obtain ⟨k', v'⟩ := p
      simp only [hDelKeys, decide_not] at ih ⊢
      by_cases hq : k' ∈ ks <;> simp [List.filter_cons, hq, ih]

theorem fst_mem_keys_of_mem_pairsList {l : List (CatId × List SetId)}
    {p : CatId × SetId} (h : p ∈ pairsList l) : p.1 ∈ l.map Prod.fst := by
  induction l with
  | nil => simp [pairsList] at h
  | cons e rest ih =>
      obtain ⟨c', lst⟩ := e
      simp only [pairsList, List.map_cons, List.flatten_cons, List.mem_append] at h
      rcases h with h1 | h1
      · obtain ⟨x, _, hx⟩ := List.mem_map.mp h1
        have : p.1 = c' := by rw [← hx]
        simp [this]
      · exact List.mem_cons_of_mem _ (ih h1)

theorem mem_pairsList {l : List (CatId × List SetId)}
    (hk : (l.map Prod.fst).Nodup) (c : CatId) (s : SetId) :
    ((c, s) ∈ pairsList l) ↔ s ∈ (hGet l c).getD [] := by
  induction l with
  | nil => simp [pairsList, hGet]
  | cons e rest ih =>
      obtain ⟨c', lst⟩ := e
      have hk' : (rest.map Prod.fst).Nodup := (List.nodup_cons.mp hk).2
      have hcnot : c' ∉ rest.map Prod.fst := (List.nodup_cons.mp hk).1
      simp only [pairsList, List.map_cons, List.flatten_cons, List.mem_append]
      by_cases hc : c' = c
      · subst hc
        simp only [hGet, if_pos rfl, Option.getD_some]
        constructor
        · rintro (h1 | h1)
          · obtain ⟨x, hx1, hx2⟩ := List.mem_map.mp h1
            have : x = s := by
              have := congrArg Prod.snd hx2
              simpa using this
            exact this ▸ hx1
          · exact absurd (fst_mem_keys_of_mem_pairsList h1) hcnot
        · intro hs
          exact Or.inl (List.mem_map_of_mem _ hs)
      · simp only [hGet, if_neg hc]
        constructor
        · rintro (h1 | h1)
          · exfalso
            obtain ⟨x, _, hx⟩ := List.mem_map.mp h1
            have hcc : c' = c := by
              have := congrArg Prod.fst hx
              simpa using this
            exact hc hcc
          · exact (ih hk').mp h1
        · intro hs
          exact Or.inr ((ih hk').mpr hs)

theorem pairsList_cons (c : CatId) (lst : List SetId)
    (rest : List (CatId × List SetId)) :
    pairsList ((c, lst) :: rest) = lst.map (fun s => (c, s)) ++ pairsList rest := by
  simp [pairsList]

theorem map_pair_filter (c : CatId) (T lst : List SetId) :
    (lst.map (fun x => (c, x))).filter
        (fun p => decide (p ∉ T.map (fun s => (c, s))))
      = (lst.filter (fun x => decide (x ∉ T))).map (fun x => (c, x)) := by
  induction lst with
  | nil => rfl
  | cons y ys ih =>
      have hiff : (((c, y) : CatId × SetId) ∈ T.map (fun s => (c, s))) ↔ y ∈ T := by
        constructor
        · intro hm
          obtain ⟨x, hx1, hx2⟩ := List.mem_map.mp hm
          have : x = y := by
            have := congrArg Prod.snd hx2
            simpa using this
          exact this ▸ hx1
        · intro hy
          exact List.mem_map_of_mem _ hy
      rw [List.map_cons, List.filter_cons, List.filter_cons]
      by_cases hy : y ∈ T
      · have h1 : (decide (((c, y) : CatId × SetId) ∉ T.map (fun s => (c, s)))) = false := by
          simp [hiff, hy]
        have h2 : (decide (y ∉ T)) = false := by simp [hy]
        rw [h1, h2]
        simp only [Bool.false_eq_true, if_false]
        exact ih
      · have h1 : (decide (((c, y) : CatId × SetId) ∉ T.map (fun s => (c, s)))) = true := by
          simp [hiff, hy]
        have h2 : (decide (y ∉ T)) = true := by simp [hy]
        rw [h1, h2]
        simp only [if_true]
        rw [List.map_cons, ih]

theorem filter_pairs_keep (c : CatId) (T : List SetId) (pl : List (CatId × SetId))
    (h : ∀ p ∈ pl, p.1 ≠ c) :
    pl.filter (fun p => decide (p ∉ T.map (fun s => (c, s)))) = pl := by
  rw [List.filter_eq_self]
  intro p hp
  simp only [decide_eq_true_eq]
  intro hm
  obtain ⟨x, _, hx⟩ := List.mem_map.mp hm
  exact h p hp (by rw [← hx])

theorem pairsList_hSet_append (l : List (CatId × List SetId)) (c : CatId) (s : SetId) :
    List.Perm (pairsList (hSet l c (((hGet l c).getD []) ++ [s])))
      (pairsList l ++ [(c, s)]) := by
  induction l with
  | nil =>
      simp [pairsList, hSet, hGet]
  | cons e rest ih =>
      obtain ⟨c', lst⟩ := e
      by_cases hc : c' = c
      · subst hc
        have hg : hGet ((c', lst) :: rest) c' = some lst := by simp [hGet]
        have hs' : hSet ((c', lst) :: rest) c' (lst ++ [s]) = (c', lst ++ [s]) :: rest := by
          simp [hSet]
        rw [hg, Option.getD_some, hs', pairsList_cons, pairsList_cons]
        simp only [List.map_append, List.map_cons, List.map_nil, List.append_assoc]
        exact List.Perm.append_left _ (List.perm_append_comm)
      · have hg : hGet ((c', lst) :: rest) c = hGet rest c := by simp [hGet, hc]
        have hs' : hSet ((c', lst) :: rest) c (((hGet rest c).getD []) ++ [s])
            = (c', lst) :: hSet rest c (((hGet rest c).getD []) ++ [s]) := by
          simp [hSet, hc]
        rw [hg, hs', pairsList_cons, pairsList_cons]
        simp only [List.append_assoc]
        exact List.Perm.append_left _ ih

theorem pairsList_evict_alloc (l : List (CatId × List SetId)) (c : CatId)
    (T : List SetId) (hk : (l.map Prod.fst).Nodup) :
    pairsList (if (((hGet l c).getD []).filter (fun s => decide (s ∉ T))).length > 0
               then hSet l c (((hGet l c).getD []).filter (fun s => decide (s ∉ T)))
               else hDel l c)
      = (pairsList l).filter (fun p => decide (p ∉ T.map (fun s => (c, s)))) := by
  induction l with
  | nil =>
      by_cases h0 : ((([] : List SetId)).filter (fun s => decide (s ∉ T))).length > 0
      · simp [hGet] at h0
      · simp [hGet, hDel, pairsList]
  | cons e rest ih =>
      obtain ⟨c', lst⟩ := e
      have hk' : (rest.map Prod.fst).Nodup := (List.nodup_cons.mp hk).2
      have hcnot : c' ∉ rest.map Prod.fst := (List.nodup_cons.mp hk).1
      by_cases hc : c' = c
      · subst hc
        have hrestpairs : (pairsList rest).filter
            (fun p => decide (p ∉ T.map (fun s => (c', s)))) = pairsList rest := by
          apply filter_pairs_keep
          intro p hp he
          exact hcnot (he ▸ fst_mem_keys_of_mem_pairsList hp)
        have hg : hGet ((c', lst) :: rest) c' = some lst := by simp [hGet]
        rw [hg, Option.getD_some]
        by_cases h0 : (lst.filter (fun s => decide (s ∉ T))).length > 0
        · rw [if_pos h0]
          have hs' : hSet ((c', lst) :: rest) c' (lst.filter (fun s => decide (s ∉ T)))
              = (c', lst.filter (fun s => decide (s ∉ T))) :: rest := by
            simp [hSet]
          rw [hs', pairsList_cons, pairsList_cons, List.filter_append]
          rw [← map_pair_filter]
          congr 1
          exact hrestpairs.symm
        · rw [if_neg h0]
          have hfnil : lst.filter (fun s => decide (s ∉ T)) = [] := by
            cases hq : lst.filter (fun s => decide (s ∉ T)) with
            | nil => rfl
            | cons a as => rw [hq] at h0; simp at h0
          have hdel : hDel ((c', lst) :: rest) c' = rest := by
            have hstep : hDel ((c', lst) :: rest) c' = hDel rest c' := by
              simp [hDel, List.filter_cons]
            rw [hstep, hDel_eq_self_of_not_mem hcnot]
          rw [hdel, pairsList_cons, List.filter_append]
          rw [map_pair_filter, hfnil]
          simp only [List.map_nil, List.nil_append]
          exact hrestpairs.symm
      · have hheadkeep : (lst.map (fun x => (c', x))).filter
            (fun p => decide (p ∉ T.map (fun s => (c, s)))) = lst.map (fun x => (c', x)) := by
          apply filter_pairs_keep
          intro p hp he
          obtain ⟨x, _, hx⟩ := List.mem_map.mp hp
          apply hc
          rw [← he, ← hx]
        have hg : hGet ((c', lst) :: rest) c = hGet rest c := by simp [hGet, hc]
        rw [hg]
        by_cases h0 : ((((hGet rest c).getD [])).filter (fun s => decide (s ∉ T))).length > 0
        · rw [if_pos h0]
          rw [if_pos h0] at ih
          have hs' : hSet ((c', lst) :: rest) c
                (((hGet rest c).getD []).filter (fun s => decide (s ∉ T)))
              = (c', lst)
                :: hSet rest c (((hGet rest c).getD []).filter (fun s => decide (s ∉ T))) := by
            simp [hSet, hc]
          rw [hs', pairsList_cons, pairsList_cons, List.filter_append]
          rw [hheadkeep]
          congr 1
          exact ih hk'
        · rw [if_neg h0]
          rw [if_neg h0] at ih
          have hstep : hDel ((c', lst) :: rest) c = (c', lst) :: hDel rest c := by
            simp [hDel, List.filter_cons, hc]
          rw [hstep, pairsList_cons, pairsList_cons, List.filter_append]
          rw [hheadkeep]
          congr 1
          exact ih hk'

theorem evict_allocations_list_eq (cfg : CacheConfig) (now : Instant)
    (st : UserState) (c : CatId) :
    ((applyCacheEvictionWithTimestamps cfg now st c).2).allocations
      = if (setsToRemove cfg now st c).isEmpty then st.allocations
        else if (remainingSets cfg now st c).length > 0
             then hSet st.allocations c (remainingSets cfg now st c)
             else hDel st.allocations c := by
  by_cases h0 : (getUserCategoryAllocations st c).length = 0
  · have hnil := List.length_eq_zero.mp h0
    have hstr : setsToRemove cfg now st c = [] :=
      setsToRemove_nil_of_empty cfg now st c hnil
    simp [applyCacheEvictionWithTimestamps, h0, hstr]
  · by_cases he : (setsToRemove cfg now st c).isEmpty
    · simp [applyCacheEvictionWithTimestamps, h0, he]
    · by_cases hr : (remainingSets cfg now st c).length > 0 <;>
        simp [applyCacheEvictionWithTimestamps, h0, he, hr]

theorem nodup_keys_hSet {κ ν : Type} [DecidableEq κ] {m : List (κ × ν)} (k : κ) (v : ν)
    (h : (m.map Prod.fst).Nodup) : ((hSet m k v).map Prod.fst).Nodup := by
  rw [keys_hSet]
  split_ifs with hk
  · exact h
  · simp [List.nodup_append, h, hk]

theorem nodup_getUserCategoryAllocations (st : UserState) (c : CatId)
    (hall : ∀ e ∈ st.allocations, e.2.Nodup) :
    (getUserCategoryAllocations st c).Nodup := by
  cases hq : hGet st.allocations c with
  | none => simp [getUserCategoryAllocations, hq]
  | some lst =>
      have := hall _ (hGet_mem hq)
      simpa [getUserCategoryAllocations, hq] using this

theorem tsCorr_add (now : Instant) (st : UserState) (c : CatId) (s : SetId)
    (h : TsCorr st) : TsCorr (addUserCategoryAllocationWithTimestamp now st c s) := by
  by_cases hmem : s ∈ getUserCategoryAllocations st c
  · rw [add_noop_of_mem now st c s hmem]
    exact h
  · obtain ⟨hk, hall, hperm⟩ := h
    have halloc : (addUserCategoryAllocationWithTimestamp now st c s).allocations
        = hSet st.allocations c (getUserCategoryAllocations st c ++ [s]) := by
      simp only [addUserCategoryAllocationWithTimestamp]
      rw [if_neg hmem]
    have htime : (addUserCategoryAllocationWithTimestamp now st c s).timestamps
        = hSet st.timestamps (c, s) now := by
      simp only [addUserCategoryAllocationWithTimestamp]
      rw [if_neg hmem]
    have hcur : (getUserCategoryAllocations st c).Nodup :=
      nodup_getUserCategoryAllocations st c hall
    unfold TsCorr
    refine ⟨?_, ?_, ?_⟩
    · rw [halloc]
      exact nodup_keys_hSet _ _ hk
    · rw [halloc]
      intro e he'
      rcases mem_hSet he' with h1 | h1
      · rw [h1]
        simp [List.nodup_append, hcur, hmem]
      · exact hall e h1
    · rw [htime]
      unfold allocPairs
      rw [halloc]
      have hnotkey : ((c, s) : CatId × SetId) ∉ st.timestamps.map Prod.fst := by
        intro hmk
        have h2 : (c, s) ∈ pairsList st.allocations := hperm.mem_iff.mp hmk
        exact hmem ((mem_pairsList hk c s).mp h2)
      rw [hSet_append_of_not_mem now hnotkey, List.map_append]
      exact (hperm.append_right [(c, s)]).trans (pairsList_hSet_append st.allocations c s).symm

theorem tsCorr_evict (cfg : CacheConfig) (now : Instant) (st : UserState) (c : CatId)
    (h : TsCorr st) : TsCorr (applyCacheEvictionWithTimestamps cfg now st c).2 := by
  obtain ⟨hk, hall, hperm⟩ := h
  have halloc := evict_allocations_list_eq cfg now st c
  have htime := evict_timestamps_eq cfg now st c
  by_cases he : (setsToRemove cfg now st c).isEmpty
  · have hnil : setsToRemove cfg now st c = [] := List.isEmpty_iff.mp he
    rw [if_pos he] at halloc
    rw [hnil] at htime
    have htime' : (applyCacheEvictionWithTimestamps cfg now st c).2.timestamps
        = st.timestamps := by
      rw [htime]
      simp [hDelKeys]
    unfold TsCorr
    refine ⟨?_, ?_, ?_⟩
    · rw [halloc]
      exact hk
    · rw [halloc]
      exact hall
    · rw [htime']
      unfold allocPairs
      rw [halloc]
      exact hperm
  · rw [if_neg he] at halloc
    have hcur : (getUserCategoryAllocations st c).Nodup :=
      nodup_getUserCategoryAllocations st c hall
    unfold TsCorr
    refine ⟨?_, ?_, ?_⟩
    · rw [halloc]
      split_ifs with hr
      · exact nodup_keys_hSet _ _ hk
      · rw [map_fst_hDel]
        exact hk.filter _
    · rw [halloc]
      intro e he'
      split_ifs at he' with hr
      · rcases mem_hSet he' with h1 | h1
        · rw [h1]
          exact hcur.filter _
        · exact hall e h1
      · exact hall e (List.mem_of_mem_filter he')
    · rw [htime]
      unfold allocPairs
      rw [halloc]
      rw [map_fst_hDelKeys]
      have hpairs : pairsList (if (remainingSets cfg now st c).length > 0
            then hSet st.allocations c (remainingSets cfg now st c)
            else hDel st.allocations c)
          = (pairsList st.allocations).filter
              (fun p => decide (p ∉ (setsToRemove cfg now st c).map (fun s => (c, s)))) :=
        pairsList_evict_alloc st.allocations c (setsToRemove cfg now st c) hk
      rw [hpairs]
      exact hperm.filter _

/-! ## Claim theorems -/

/-- Claim C5: an `allocateNext` call (`getNextAvailableSetForUser`) never
mutates the category pools — the pool state (queues, membership, order and
metadata) is identical before and after the call, whether the call returns a
set-id or `none`. -/
theorem allocate_preserves_pool (cfg : CacheConfig) (now : Instant)
    (gst : GlobalState) (c : CatId) :
    ((getNextAvailableSetForUser cfg now gst c).2).pool = gst.pool := by
  simp only [getNextAvailableSetForUser]
  split <;> rfl

/-- Claim C2, counterexample: with `maxSetsPerCategory = 1`, a user already
holding exactly one (recently assigned) set who receives a second one ends
the `allocateNext` call with two sets and nothing evicted, so the claimed
post-call bound `|Ledger(u,c)| ≤ maxSetsPerCategory` fails. -/
theorem allocate_at_cap_exceeds_cap :
    (getUserCategoryAllocations
        ((getNextAvailableSetForUser ⟨1, 2⟩ ⟨100, 0⟩
            ⟨⟨[("cat-X", ["B", "A"])], []⟩,
             ⟨[("cat-X", ["A"])], [(("cat-X", "A"), ⟨100, 0⟩)], []⟩⟩ "cat-X").2).user
        "cat-X")
      = ["A", "B"]
    ∧ ¬ (["A", "B"].length ≤ (1 : Nat)) := by
  constructor
  · rfl
  · decide

/-- Claim C2 (amended): eviction runs before the pool scan, so the per-user
per-category list is at most `maxSetsPerCategory` long after eviction and at
most `maxSetsPerCategory + 1` long when the call completes; a user who
already holds exactly `maxSetsPerCategory` sets has nothing evicted in that
call and ends with `maxSetsPerCategory + 1` sets — the cap is re-established
only at the start of the next call. -/
theorem allocate_list_length_le_cap_succ (cfg : CacheConfig) (now : Instant)
    (gst : GlobalState) (c : CatId) :
    (getUserCategoryAllocations
        (applyCacheEvictionWithTimestamps cfg now gst.user c).2 c).length
      ≤ cfg.maxSetsPerCategory
    ∧ (getUserCategoryAllocations ((getNextAvailableSetForUser cfg now gst c).2).user
        c).length
      ≤ cfg.maxSetsPerCategory + 1 := by
  refine ⟨evict_allocations_length_le cfg now gst.user c, ?_⟩
  have hb := evict_allocations_length_le cfg now gst.user c
  simp only [getNextAvailableSetForUser]
  split
  · rw [getUserCategoryAllocations_add]
    split_ifs with hm
    · omega
    · rw [List.length_append]
      simp only [List.length_singleton]
      omega
  · show (getUserCategoryAllocations
        (applyCacheEvictionWithTimestamps cfg now gst.user c).2 c).length
      ≤ cfg.maxSetsPerCategory + 1
    omega

/-- Claim C1, counterexample: the builder inserts `[S1, S2, S3]` into an
empty pool; a user with no allocations then calls `allocateNext` and
receives `S3`, the latest-inserted set — not `S1` as the FIFO claim
requires. -/
theorem allocate_fresh_user_gets_newest :
    (getNextAvailableSetForUser ⟨10, 2⟩ ⟨100, 0⟩
        ⟨addSetsToQueue ⟨100, 0⟩ emptyPool "cat-X" ["S1", "S2", "S3"],
         ⟨[], [], []⟩⟩ "cat-X").1 = some "S3"
    ∧ (some "S3" : Option SetId) ≠ some "S1" := by
  constructor
  · rfl
  · decide

/-- Claim C1 (amended): `addSetsToQueue` LPUSHes batches while the allocator
scans the stored list head-first (`LRANGE 0 -1`), i.e. in REVERSE builder
insertion order; so if the pool was built by pushing `batches` (insertion
order `batches.flatten`), the returned set-id is the latest-inserted pool
element not in the user's post-eviction allocation list `U` — for a fresh
user and one batch `[S1, S2, S3]` the call returns `S3`. -/
theorem allocate_returns_latest_inserted (cfg : CacheConfig) (now : Instant)
    (batches : List (List SetId)) (ust : UserState) (c : CatId) :
    (getNextAvailableSetForUser cfg now
        ⟨batches.foldl (fun p b => addSetsToQueue now p c b) emptyPool, ust⟩ c).1
      = (batches.flatten).reverse.find?
          (fun s => decide (s ∉ getUserCategoryAllocations
              (applyCacheEvictionWithTimestamps cfg now ust c).2 c)) := by
  have hq : poolQueue
      (batches.foldl (fun p b => addSetsToQueue now p c b) emptyPool) c
      = (batches.flatten).reverse := by
    rw [poolQueue_foldl_addSetsToQueue]
    simp [emptyPool, poolQueue, hGet]
  simp only [getNextAvailableSetForUser, hq]
  cases hfind : (batches.flatten).reverse.find?
      (fun s => decide (s ∉ getUserCategoryAllocations
          (applyCacheEvictionWithTimestamps cfg now ust c).2 c)) <;>
    simp [hfind]

/-- Claim C10: recording an allocation of a set-id the user already holds is
a complete no-op — allocation list, per-set timestamps and per-user metadata
are all unchanged — and hence recording the same allocation twice (at any
two times) equals recording it once. -/
theorem allocation_recording_idempotent (now now' : Instant) (st : UserState)
    (c : CatId) (s : SetId) :
    (s ∈ getUserCategoryAllocations st c →
      addUserCategoryAllocationWithTimestamp now st c s = st)
    ∧ addUserCategoryAllocationWithTimestamp now'
        (addUserCategoryAllocationWithTimestamp now st c s) c s
      = addUserCategoryAllocationWithTimestamp now st c s := by
  refine ⟨add_noop_of_mem now st c s, ?_⟩
  by_cases h : s ∈ getUserCategoryAllocations st c
  · rw [add_noop_of_mem now st c s h, add_noop_of_mem now' st c s h]
  · have hmem : s ∈ getUserCategoryAllocations
        (addUserCategoryAllocationWithTimestamp now st c s) c := by
      rw [getUserCategoryAllocations_add, if_neg h]
      simp
    exact add_noop_of_mem now' _ c s hmem

/-- Witness for C10 at a concrete state: user `u` already holds `A` in
`cat-X`; re-recording `A` leaves the state bit-for-bit unchanged. -/
theorem allocation_recording_idempotent_witness :
    addUserCategoryAllocationWithTimestamp ⟨101, 0⟩
        ⟨[("cat-X", ["A"])], [(("cat-X", "A"), ⟨100, 0⟩)], []⟩ "cat-X" "A"
      = ⟨[("cat-X", ["A"])], [(("cat-X", "A"), ⟨100, 0⟩)], []⟩ :=
  (allocation_recording_idempotent ⟨101, 0⟩ ⟨102, 0⟩
    ⟨[("cat-X", ["A"])], [(("cat-X", "A"), ⟨100, 0⟩)], []⟩ "cat-X" "A").1 (by decide)

/-- Claim C4: when the per-(user, category) list of length `n` exceeds the
cap, count-cap eviction marks exactly `k = n - maxSetsPerCategory` items and
they are exactly the first `k` elements of the ordered list (the earliest
allocated); all of them are gone from the list after the call. -/
theorem countcap_evicts_oldest_prefix (cfg : CacheConfig) (now : Instant)
    (st : UserState) (c : CatId)
    (hcap : (getUserCategoryAllocations st c).length > cfg.maxSetsPerCategory) :
    ((applyCacheEvictionWithTimestamps cfg now st c).1.removedSets).take
        ((getUserCategoryAllocations st c).length - cfg.maxSetsPerCategory)
      = (getUserCategoryAllocations st c).take
          ((getUserCategoryAllocations st c).length - cfg.maxSetsPerCategory)
    ∧ ∀ s ∈ (getUserCategoryAllocations st c).take
          ((getUserCategoryAllocations st c).length - cfg.maxSetsPerCategory),
        s ∉ getUserCategoryAllocations
            (applyCacheEvictionWithTimestamps cfg now st c).2 c := by
  obtain ⟨ext, hx⟩ := setsToRemove_prefix cfg now st c
  have hstart : (evictStart cfg (getUserCategoryAllocations st c)).1
      = (getUserCategoryAllocations st c).take
          ((getUserCategoryAllocations st c).length - cfg.maxSetsPerCategory) := by
    simp [evictStart, hcap]
  have hrem := evict_removedSets_eq_setsToRemove cfg now st c
  constructor
  · rw [hrem, hx, hstart]
    have hlen : ((getUserCategoryAllocations st c).take
        ((getUserCategoryAllocations st c).length - cfg.maxSetsPerCategory)).length
        = (getUserCategoryAllocations st c).length - cfg.maxSetsPerCategory := by
      rw [List.length_take]
      omega
    rw [List.take_append_of_le_length (le_of_eq hlen.symm)]
    simp [List.take_take]
  · intro s hs
    rw [evict_allocations_eq]
    intro hmem'
    have hnot := (List.mem_filter.mp hmem').2
    simp only [decide_eq_true_eq] at hnot
    apply hnot
    rw [hrem, hx]
    exact List.mem_append_left _ (by rw [hstart]; exact hs)

/-- Witness for C4: `maxSetsPerCategory = 2`, list `[a, b, c, d]` with fresh
timestamps: eviction removes exactly `[a, b]`, the two earliest. -/
theorem countcap_evicts_oldest_prefix_witness :
    let st : UserState :=
      ⟨[("c", ["a", "b", "c", "d"])],
       [(("c", "a"), ⟨100, 0⟩), (("c", "b"), ⟨100, 0⟩),
        (("c", "c"), ⟨100, 0⟩), (("c", "d"), ⟨100, 0⟩)], []⟩
    ((applyCacheEvictionWithTimestamps ⟨2, 2⟩ ⟨100, 0⟩ st "c").1.removedSets).take
        ((getUserCategoryAllocations st "c").length - 2)
      = (getUserCategoryAllocations st "c").take
          ((getUserCategoryAllocations st "c").length - 2)
    ∧ ∀ s ∈ (getUserCategoryAllocations st "c").take
          ((getUserCategoryAllocations st "c").length - 2),
        s ∉ getUserCategoryAllocations
            (applyCacheEvictionWithTimestamps ⟨2, 2⟩ ⟨100, 0⟩ st "c").2 "c" :=
  countcap_evicts_oldest_prefix ⟨2, 2⟩ ⟨100, 0⟩ _ "c" (by decide)

/-- Claim C3: for a (user, category) whose listed sets all carry `assignedAt`
timestamps and whose list has no duplicates, eviction removes exactly the
count-cap-marked prefix plus those unmarked sets whose timestamp is earlier
than `now` shifted back `maxAgeMonths` whole calendar months; the
`assignedAt` entries of precisely the removed sets are deleted; and the
category field is deleted from the user's record exactly when the remaining
list is empty (kept with the remaining sets otherwise). -/
theorem age_eviction_exact (cfg : CacheConfig) (now : Instant) (st : UserState)
    (c : CatId)
    (hnd : (getUserCategoryAllocations st c).Nodup)
    (hts : ∀ s ∈ getUserCategoryAllocations st c, (hGet st.timestamps (c, s)).isSome) :
    (applyCacheEvictionWithTimestamps cfg now st c).1.removedSets
      = (evictStart cfg (getUserCategoryAllocations st c)).1
        ++ (getUserCategoryAllocations st c).filter
            (fun s => decide (s ∉ (evictStart cfg (getUserCategoryAllocations st c)).1)
              && isOldAt st c (now.subMonths cfg.maxAgeMonths) s)
    ∧ (∀ s ∈ (applyCacheEvictionWithTimestamps cfg now st c).1.removedSets,
        hGet ((applyCacheEvictionWithTimestamps cfg now st c).2).timestamps (c, s) = none)
    ∧ (∀ c' s', (c', s') ∉ ((applyCacheEvictionWithTimestamps cfg now st c).1.removedSets).map
          (fun s => (c, s)) →
        hGet ((applyCacheEvictionWithTimestamps cfg now st c).2).timestamps (c', s')
          = hGet st.timestamps (c', s'))
    ∧ ((applyCacheEvictionWithTimestamps cfg now st c).1.removedSets ≠ [] →
        (remainingSets cfg now st c = [] →
          hGet ((applyCacheEvictionWithTimestamps cfg now st c).2).allocations c = none)
        ∧ (remainingSets cfg now st c ≠ [] →
          hGet ((applyCacheEvictionWithTimestamps cfg now st c).2).allocations c
            = some (remainingSets cfg now st c))) := by
  have hrem := evict_removedSets_eq_setsToRemove cfg now st c
  refine ⟨?_, ?_, ?_, ?_⟩
  · rw [hrem]
    exact setsToRemove_eq cfg now st c hnd
  · intro s hs
    rw [evict_timestamps_eq]
    apply hGet_hDelKeys_mem
    rw [hrem] at hs
    exact List.mem_map_of_mem _ hs
  · intro c' s' hns
    rw [evict_timestamps_eq]
    apply hGet_hDelKeys_not_mem
    rw [hrem] at hns
    exact hns
  · intro hne
    rw [hrem] at hne
    constructor
    · intro h
      rw [evict_allocations_entry cfg now st c hne, if_pos h]
    · intro h
      rw [evict_allocations_entry cfg now st c hne, if_neg h]

/-- Witness for C3: list `[x, y, z]` where `x, y` were assigned three months
ago and `z` recently (`maxAgeMonths = 2`): eviction removes exactly `[x, y]`,
deletes exactly their timestamps, and keeps the category entry as `[z]`. -/
theorem age_eviction_exact_witness :
    let st : UserState :=
      ⟨[("c", ["x", "y", "z"])],
       [(("c", "x"), ⟨97, 0⟩), (("c", "y"), ⟨97, 0⟩), (("c", "z"), ⟨100, 5⟩)], []⟩
    (applyCacheEvictionWithTimestamps ⟨10, 2⟩ ⟨100, 5⟩ st "c").1.removedSets
      = (evictStart ⟨10, 2⟩ (getUserCategoryAllocations st "c")).1
        ++ (getUserCategoryAllocations st "c").filter
            (fun s => decide (s ∉ (evictStart ⟨10, 2⟩ (getUserCategoryAllocations st "c")).1)
              && isOldAt st "c" (Instant.subMonths ⟨100, 5⟩ 2) s)
    ∧ (∀ s ∈ (applyCacheEvictionWithTimestamps ⟨10, 2⟩ ⟨100, 5⟩ st "c").1.removedSets,
        hGet ((applyCacheEvictionWithTimestamps ⟨10, 2⟩ ⟨100, 5⟩ st "c").2).timestamps
          ("c", s) = none)
    ∧ (∀ c' s', (c', s')
          ∉ ((applyCacheEvictionWithTimestamps ⟨10, 2⟩ ⟨100, 5⟩ st "c").1.removedSets).map
              (fun s => ("c", s)) →
        hGet ((applyCacheEvictionWithTimestamps ⟨10, 2⟩ ⟨100, 5⟩ st "c").2).timestamps
            (c', s')
          = hGet st.timestamps (c', s'))
    ∧ ((applyCacheEvictionWithTimestamps ⟨10, 2⟩ ⟨100, 5⟩ st "c").1.removedSets ≠ [] →
        (remainingSets ⟨10, 2⟩ ⟨100, 5⟩ st "c" = [] →
          hGet ((applyCacheEvictionWithTimestamps ⟨10, 2⟩ ⟨100, 5⟩ st "c").2).allocations
            "c" = none)
        ∧ (remainingSets ⟨10, 2⟩ ⟨100, 5⟩ st "c" ≠ [] →
          hGet ((applyCacheEvictionWithTimestamps ⟨10, 2⟩ ⟨100, 5⟩ st "c").2).allocations
              "c"
            = some (remainingSets ⟨10, 2⟩ ⟨100, 5⟩ st "c"))) :=
  age_eviction_exact ⟨10, 2⟩ ⟨100, 5⟩ _ "c" (by decide) (by decide)

/-- Claim C7, counterexample: `clearUserAllocations` deletes the allocations
hash and the metadata hash but not the `…:timestamps` hash, so resetting a
user who holds one timestamped set leaves an orphaned `assignedAt` entry and
breaks the one-to-one correspondence. -/
theorem reset_breaks_ts_correspondence :
    TsCorr ⟨[("cat-X", ["A"])], [(("cat-X", "A"), ⟨100, 0⟩)], []⟩
    ∧ ¬ TsCorr (clearUserAllocations
        ⟨[("cat-X", ["A"])], [(("cat-X", "A"), ⟨100, 0⟩)], []⟩) := by
  constructor
  · decide
  · decide

/-- Claim C7 (amended): timestamped allocation and eviction preserve the
one-to-one correspondence between stored `assignedAt` entries and listed
(category, set-id) pairs; administrative reset (`clearUserAllocations`)
empties the allocation lists but leaves the `assignedAt` hash untouched, so
it preserves the correspondence only when the user had no stored
timestamps. -/
theorem ts_correspondence_preserved (cfg : CacheConfig) (now now' : Instant)
    (st : UserState) (c : CatId) (s : SetId) (h : TsCorr st) :
    TsCorr (addUserCategoryAllocationWithTimestamp now st c s)
    ∧ TsCorr (applyCacheEvictionWithTimestamps cfg now' st c).2
    ∧ (clearUserAllocations st).allocations = []
    ∧ (clearUserAllocations st).timestamps = st.timestamps
    ∧ (st.timestamps = [] → TsCorr (clearUserAllocations st)) := by
  refine ⟨tsCorr_add now st c s h, tsCorr_evict cfg now' st c h, rfl, rfl, ?_⟩
  intro hnil
  unfold TsCorr clearUserAllocations
  simp [hnil, allocPairs, pairsList]

/-- Witness for C7 at a concrete state satisfying the correspondence. -/
theorem ts_correspondence_preserved_witness :
    TsCorr (addUserCategoryAllocationWithTimestamp ⟨101, 0⟩
        ⟨[("cat-X", ["A"])], [(("cat-X", "A"), ⟨100, 0⟩)], []⟩ "cat-X" "B")
    ∧ TsCorr (applyCacheEvictionWithTimestamps ⟨10, 2⟩ ⟨102, 0⟩
        ⟨[("cat-X", ["A"])], [(("cat-X", "A"), ⟨100, 0⟩)], []⟩ "cat-X").2
    ∧ (clearUserAllocations
        ⟨[("cat-X", ["A"])], [(("cat-X", "A"), ⟨100, 0⟩)], []⟩).allocations = []
    ∧ (clearUserAllocations
        ⟨[("cat-X", ["A"])], [(("cat-X", "A"), ⟨100, 0⟩)], []⟩).timestamps
      = (⟨[("cat-X", ["A"])], [(("cat-X", "A"), ⟨100, 0⟩)], []⟩ : UserState).timestamps
    ∧ ((⟨[("cat-X", ["A"])], [(("cat-X", "A"), ⟨100, 0⟩)], []⟩ : UserState).timestamps = []
        → TsCorr (clearUserAllocations
            ⟨[("cat-X", ["A"])], [(("cat-X", "A"), ⟨100, 0⟩)], []⟩)) :=
  ts_correspondence_preserved ⟨10, 2⟩ ⟨101, 0⟩ ⟨102, 0⟩
    ⟨[("cat-X", ["A"])], [(("cat-X", "A"), ⟨100, 0⟩)], []⟩ "cat-X" "B" (by decide)

/-- Claim C6: the core operations preserve duplicate-freedom of the
per-(user, category) allocation list: timestamped allocation, eviction, and
the full `allocateNext` call each map a duplicate-free list to a
duplicate-free list. -/
theorem no_duplicates_preserved (cfg : CacheConfig) (now : Instant)
    (st : UserState) (gst : GlobalState) (c : CatId) (s : SetId)
    (hnd : (getUserCategoryAllocations st c).Nodup)
    (hnd2 : (getUserCategoryAllocations gst.user c).Nodup) :
    (getUserCategoryAllocations
        (addUserCategoryAllocationWithTimestamp now st c s) c).Nodup
    ∧ (getUserCategoryAllocations
        (applyCacheEvictionWithTimestamps cfg now st c).2 c).Nodup
    ∧ (getUserCategoryAllocations
        ((getNextAvailableSetForUser cfg now gst c).2).user c).Nodup := by
  have hadd : ∀ (st' : UserState), (getUserCategoryAllocations st' c).Nodup →
      ∀ s', (getUserCategoryAllocations
          (addUserCategoryAllocationWithTimestamp now st' c s') c).Nodup := by
    intro st' h s'
    rw [getUserCategoryAllocations_add]
    split_ifs with hm
    · exact h
    · simp [List.nodup_append, h, hm]
  have hevict : ∀ (st' : UserState), (getUserCategoryAllocations st' c).Nodup →
      (getUserCategoryAllocations
          (applyCacheEvictionWithTimestamps cfg now st' c).2 c).Nodup := by
    intro st' h
    rw [evict_allocations_eq]
    exact h.filter _
  refine ⟨hadd st hnd s, hevict st hnd, ?_⟩
  simp only [getNextAvailableSetForUser]
  split
  · exact hadd _ (hevict gst.user hnd2) _
  · show (getUserCategoryAllocations
        (applyCacheEvictionWithTimestamps cfg now gst.user c).2 c).Nodup
    exact hevict gst.user hnd2

/-- Witness for C6 at a concrete duplicate-free state. -/
theorem no_duplicates_preserved_witness :
    (getUserCategoryAllocations
        (addUserCategoryAllocationWithTimestamp ⟨100, 0⟩
          ⟨[("c", ["a"])], [(("c", "a"), ⟨100, 0⟩)], []⟩ "c" "b") "c").Nodup
    ∧ (getUserCategoryAllocations
        (applyCacheEvictionWithTimestamps ⟨10, 2⟩ ⟨100, 0⟩
          ⟨[("c", ["a"])], [(("c", "a"), ⟨100, 0⟩)], []⟩ "c").2 "c").Nodup
    ∧ (getUserCategoryAllocations
        ((getNextAvailableSetForUser ⟨10, 2⟩ ⟨100, 0⟩
          ⟨⟨[("c", ["b", "a"])], []⟩,
           ⟨[("c", ["a"])], [(("c", "a"), ⟨100, 0⟩)], []⟩⟩ "c").2).user "c").Nodup :=
  no_duplicates_preserved ⟨10, 2⟩ ⟨100, 0⟩
    ⟨[("c", ["a"])], [(("c", "a"), ⟨100, 0⟩)], []⟩
    ⟨⟨[("c", ["b", "a"])], []⟩, ⟨[("c", ["a"])], [(("c", "a"), ⟨100, 0⟩)], []⟩⟩
    "c" "b" (by decide) (by decide)

theorem sorted_le_getLast (l : List String) (hs : List.Sorted (· ≤ ·) l) :
    ∀ x ∈ l, ∀ w, l.getLast? = some w → x ≤ w := by
  induction l with
  | nil =>
      intro x hx
      simp at hx
  | cons a t ih =>
      intro x hx w hw
      cases t with
      | nil =>
          simp at hx hw
          rw [hx, ← hw]
      | cons b t2 =>
          have hs' : List.Sorted (· ≤ ·) (b :: t2) := (List.sorted_cons.mp hs).2
          have hw' : (b :: t2).getLast? = some w := by
            rw [← List.getLast?_cons_cons (a := a)]
            exact hw
          rcases List.mem_cons.mp hx with rfl | hx2
          · have hbw : b ≤ w := ih hs' b (by simp) w hw'
            have hab : x ≤ b := (List.sorted_cons.mp hs).1 b (by simp)
            exact le_trans hab hbw
          · exact ih hs' x hx2 w hw'

theorem generateSetsForCategory_eq (questions : List Question) (N p : Nat)
    (hfull : ∀ i, i < N → ((questions.drop (i * p)).take p).length = p) :
    generateSetsForCategory questions N p
      = (List.range N).map (fun i => (questions.drop (i * p)).take p) := by
  unfold generateSetsForCategory
  induction N with
  | zero => rfl
  | succ n ih =>
      rw [List.range_succ, List.foldl_append, List.map_append]
      rw [ih (fun i hi => hfull i (Nat.lt_succ_of_lt hi))]
      simp only [List.foldl_cons, List.foldl_nil, List.map_cons, List.map_nil]
      rw [if_pos (hfull n (Nat.lt_succ_self n))]

theorem storeSetsForCategory_spec (uuid : Nat → String) (now : Instant) (c : CatId)
    (sets : List (List Question)) (allUsed : List Question) :
    (storeSetsForCategory uuid now c sets allUsed).length = sets.length
    ∧ (∀ i (h1 : i < sets.length)
        (h2 : i < (storeSetsForCategory uuid now c sets allUsed).length),
        ((storeSetsForCategory uuid now c sets allUsed).get ⟨i, h2⟩).question_ids
          = (sets.get ⟨i, h1⟩).map Question.id)
    ∧ (∀ e ∈ storeSetsForCategory uuid now c sets allUsed,
        e.offset = ((allUsed.map Question.id).insertionSort (· ≤ ·)).getLast?) := by
  refine ⟨?_, ?_, ?_⟩
  · simp [storeSetsForCategory, List.enum_length]
  · intro i h1 h2
    simp [storeSetsForCategory, List.get_eq_getElem, List.getElem_map,
      List.getElem_enum]
  · intro e he
    simp only [storeSetsForCategory, List.mem_map] at he
    obtain ⟨x, _, hx⟩ := he
    rw [← hx]

/-- Claim C8: for a category whose eligible items are sorted ascending by id,
the per-category build emits exactly `N = min numSetsPerCategory
⌊|questions| / questionsPerSet⌋` contiguous full sets taken from the first
`N * questionsPerSet` items (the trailing remainder is not emitted), and
every emitted set carries the same watermark (`offset`): the
lexicographically greatest consumed item-id. -/
theorem builder_partition_exact (uuid : Nat → String) (now : Instant) (c : CatId)
    (questions : List Question) (numSets p : Nat) (hp : 0 < p)
    (hsorted : List.Sorted (· ≤ ·) (questions.map Question.id)) :
    (generateQuestionSetsForCategory uuid now c questions numSets p).length
      = min numSets (questions.length / p)
    ∧ (∀ i
        (h2 : i < (generateQuestionSetsForCategory uuid now c questions numSets p).length),
        ((generateQuestionSetsForCategory uuid now c questions numSets p).get
            ⟨i, h2⟩).question_ids
          = ((questions.drop (i * p)).take p).map Question.id)
    ∧ (∀ e ∈ generateQuestionSetsForCategory uuid now c questions numSets p,
        e.offset = ((questions.take (min numSets (questions.length / p) * p)).map
            Question.id).getLast?)
    ∧ (∀ e ∈ generateQuestionSetsForCategory uuid now c questions numSets p,
        ∀ x ∈ (questions.take (min numSets (questions.length / p) * p)).map Question.id,
        ∀ w, e.offset = some w → x ≤ w) := by
  by_cases hlt : questions.length < p
  · have hdiv : questions.length / p = 0 := Nat.div_eq_of_lt hlt
    have hstored : generateQuestionSetsForCategory uuid now c questions numSets p = [] := by
      simp only [generateQuestionSetsForCategory]
      rw [if_pos hlt]
    rw [hstored]
    refine ⟨by simp [hdiv], ?_, ?_, ?_⟩
    · intro i h2
      simp at h2
    · intro e he
      simp at he
    · intro e he
      simp at he
  · have hNle : min numSets (questions.length / p) * p ≤ questions.length := by
      calc min numSets (questions.length / p) * p
          ≤ (questions.length / p) * p :=
            Nat.mul_le_mul_right p (min_le_right _ _)
        _ ≤ questions.length := Nat.div_mul_le_self _ _
    have hfull : ∀ i, i < min numSets (questions.length / p) →
        ((questions.drop (i * p)).take p).length = p := by
      intro i hi
      rw [List.length_take, List.length_drop]
      have h2 : (i + 1) * p ≤ min numSets (questions.length / p) * p :=
        Nat.mul_le_mul_right p (Nat.succ_le_of_lt hi)
      rw [Nat.succ_mul] at h2
      omega
    have hsets := generateSetsForCategory_eq questions
      (min numSets (questions.length / p)) p hfull
    have hstored : generateQuestionSetsForCategory uuid now c questions numSets p
        = storeSetsForCategory uuid now c
            ((List.range (min numSets (questions.length / p))).map
              (fun i => (questions.drop (i * p)).take p))
            (questions.take (min numSets (questions.length / p) * p)) := by
      simp only [generateQuestionSetsForCategory]
      rw [if_neg hlt, hsets]
    obtain ⟨hlen', hget', hoff'⟩ := storeSetsForCategory_spec uuid now c
      ((List.range (min numSets (questions.length / p))).map
        (fun i => (questions.drop (i * p)).take p))
      (questions.take (min numSets (questions.length / p) * p))
    have hconsorted : List.Sorted (· ≤ ·)
        ((questions.take (min numSets (questions.length / p) * p)).map Question.id) := by
      rw [List.map_take]
      exact List.Pairwise.sublist (List.take_sublist _ _) hsorted
    have hsort_eq : ((questions.take (min numSets (questions.length / p) * p)).map
          Question.id).insertionSort (· ≤ ·)
        = (questions.take (min numSets (questions.length / p) * p)).map Question.id :=
      hconsorted.insertionSort_eq
    refine ⟨?_, ?_, ?_, ?_⟩
    · rw [hstored, hlen']
      simp
    · intro i h2
      rw [List.get_of_eq hstored ⟨i, h2⟩]
      have h2' : i < (storeSetsForCategory uuid now c
          ((List.range (min numSets (questions.length / p))).map
            (fun i => (questions.drop (i * p)).take p))
          (questions.take (min numSets (questions.length / p) * p))).length := by
        rw [← hstored]
        exact h2
      have h1 : i < ((List.range (min numSets (questions.length / p))).map
          (fun i => (questions.drop (i * p)).take p)).length := by
        rw [← hlen']
        exact h2'
      rw [hget' i h1 h2']
      congr 1
      simp [List.get_eq_getElem, List.getElem_map, List.getElem_range]
    · intro e he
      rw [hstored] at he
      rw [hoff' e he, hsort_eq]
    · intro e he
      rw [hstored] at he
      intro x hx w hw
      rw [hoff' e he, hsort_eq] at hw
      exact sorted_le_getLast _ hconsorted x hx w hw

/-- Witness for C8, the spec's literal scenario: 14 items `i01..i14`, three
sets of five requested: exactly two sets are emitted, consuming `i01..i10`,
both carrying watermark `i10`; `i11..i14` are left for the next build. -/
theorem builder_partition_exact_witness :
    let qs : List Question :=
      [⟨"i01", "h1"⟩, ⟨"i02", "h2"⟩, ⟨"i03", "h3"⟩, ⟨"i04", "h4"⟩, ⟨"i05", "h5"⟩,
       ⟨"i06", "h6"⟩, ⟨"i07", "h7"⟩, ⟨"i08", "h8"⟩, ⟨"i09", "h9"⟩, ⟨"i10", "h10"⟩,
       ⟨"i11", "h11"⟩, ⟨"i12", "h12"⟩, ⟨"i13", "h13"⟩, ⟨"i14", "h14"⟩]
    (generateQuestionSetsForCategory (fun n => "set" ++ toString n) ⟨100, 0⟩
        "cat-X" qs 3 5).length = min 3 (qs.length / 5)
    ∧ (∀ i (h2 : i < (generateQuestionSetsForCategory (fun n => "set" ++ toString n)
          ⟨100, 0⟩ "cat-X" qs 3 5).length),
        ((generateQuestionSetsForCategory (fun n => "set" ++ toString n) ⟨100, 0⟩
            "cat-X" qs 3 5).get ⟨i, h2⟩).question_ids
          = ((qs.drop (i * 5)).take 5).map Question.id)
    ∧ (∀ e ∈ generateQuestionSetsForCategory (fun n => "set" ++ toString n) ⟨100, 0⟩
          "cat-X" qs 3 5,
        e.offset = ((qs.take (min 3 (qs.length / 5) * 5)).map Question.id).getLast?)
    ∧ (∀ e ∈ generateQuestionSetsForCategory (fun n => "set" ++ toString n) ⟨100, 0⟩
          "cat-X" qs 3 5,
        ∀ x ∈ (qs.take (min 3 (qs.length / 5) * 5)).map Question.id,
        ∀ w, e.offset = some w → x ≤ w) :=
  builder_partition_exact (fun n => "set" ++ toString n) ⟨100, 0⟩ "cat-X"
    [⟨"i01", "h1"⟩, ⟨"i02", "h2"⟩, ⟨"i03", "h3"⟩, ⟨"i04", "h4"⟩, ⟨"i05", "h5"⟩,
     ⟨"i06", "h6"⟩, ⟨"i07", "h7"⟩, ⟨"i08", "h8"⟩, ⟨"i09", "h9"⟩, ⟨"i10", "h10"⟩,
     ⟨"i11", "h11"⟩, ⟨"i12", "h12"⟩, ⟨"i13", "h13"⟩, ⟨"i14", "h14"⟩]
    3 5 (by decide)
    (by
      apply List.chain'_iff_pairwise.mp
      simp only [List.map_cons, List.map_nil, List.chain'_cons, List.chain'_singleton,
        and_true, String.le_iff_toList_le]
      decide)

theorem filter_length_compl {α : Type} (l : List α) (p : α → Bool) :
    (l.filter p).length + (l.filter (fun x => !(p x))).length = l.length := by
  induction l with
  | nil => rfl
  | cons x xs ih =>
      by_cases hx : p x = true <;>
        simp [List.filter_cons, hx, ih] <;> omega

theorem prepared_filter_length (hashFn : String → String) (uuid : Nat → String)
    (now : Instant) (storeHashes : List String) :
    ∀ (qs : List RawQuestion) (n : Nat),
    (((qs.enumFrom n).map
        (fun e => prepareQuestionForStorage hashFn uuid now e.1 e.2)).filter
        (fun q => decide (q.hash ∉ storeHashes))).length
      = (qs.filter (fun q => decide (hashFn q.title ∉ storeHashes))).length := by
  intro qs
  induction qs with
  | nil => intro n; rfl
  | cons q rest ih =>
      intro n
      simp only [prepareQuestionForStorage, decide_not] at ih
      by_cases hq : hashFn q.title ∈ storeHashes <;>
        simp [List.enumFrom, List.filter_cons, prepareQuestionForStorage, decide_not,
          hq, ih]

/-- Claim C9, counterexample: two input items with the same title (hence the
same content hash) against an empty store: both pass the pre-read dedupe
check (all checks run before any write) and both are counted stored, where
the claim's distinct-hash count is 1. -/
theorem intra_batch_duplicates_stored :
    (storeQuestions (fun t => t) (fun _ => "u") ⟨100, 0⟩ []
        [⟨none, "t"⟩, ⟨none, "t"⟩]).stored = 2
    ∧ ((([⟨none, "t"⟩, ⟨none, "t"⟩] : List RawQuestion).map
          (fun q => (fun t => t) q.title)).filter
          (fun h => decide (h ∉ ([] : List String)))).dedup.length = 1
    ∧ (2 : Nat) ≠ 1 := by
  refine ⟨rfl, by decide, by decide⟩

/-- Claim C9 (amended): the batch ingest counts as stored every input item —
with multiplicity — whose content hash is not already present in the store
(the pre-read dedupe does not suppress repeated hashes within the batch);
items whose hash is already in the store are counted skipped, and none
fail. -/
theorem ingest_stored_count (hashFn : String → String) (uuid : Nat → String)
    (now : Instant) (storeHashes : List String) (questions : List RawQuestion) :
    (storeQuestions hashFn uuid now storeHashes questions).stored
      = (questions.filter (fun q => decide (hashFn q.title ∉ storeHashes))).length
    ∧ (storeQuestions hashFn uuid now storeHashes questions).skipped
      = (questions.filter (fun q => decide (hashFn q.title ∈ storeHashes))).length
    ∧ (storeQuestions hashFn uuid now storeHashes questions).stored
        + (storeQuestions hashFn uuid now storeHashes questions).skipped
      = questions.length
    ∧ (storeQuestions hashFn uuid now storeHashes questions).failed = 0 := by
  have hstored : (storeQuestions hashFn uuid now storeHashes questions).stored
      = (questions.filter (fun q => decide (hashFn q.title ∉ storeHashes))).length := by
    simp only [storeQuestions, List.enum]
    exact prepared_filter_length hashFn uuid now storeHashes questions 0
  have hlenprep : (questions.enum.map
      (fun e => prepareQuestionForStorage hashFn uuid now e.1 e.2)).length
      = questions.length := by
    simp [List.enum_length]
  have hle : ((questions.enum.map
      (fun e => prepareQuestionForStorage hashFn uuid now e.1 e.2)).filter
      (fun q => decide (q.hash ∉ storeHashes))).length
      ≤ questions.length := by
    rw [← hlenprep]
    exact List.length_filter_le _ _
  have hcompl := filter_length_compl questions
    (fun q => decide (hashFn q.title ∉ storeHashes))
  have hpred : questions.filter (fun q => !(decide (hashFn q.title ∉ storeHashes)))
      = questions.filter (fun q => decide (hashFn q.title ∈ storeHashes)) := by
    apply List.filter_congr
    intro a _
    simp [decide_not]
  have hskip : (storeQuestions hashFn uuid now storeHashes questions).skipped
      = questions.length
        - (questions.filter (fun q => decide (hashFn q.title ∉ storeHashes))).length := by
    simp only [storeQuestions, List.enum]
    rw [prepared_filter_length hashFn uuid now storeHashes questions 0]
    congr 1
  refine ⟨hstored, ?_, ?_, ?_⟩
  · rw [hskip, ← hpred]
    omega
  · rw [hstored, hskip]
    rw [hpred] at hcompl
    omega
  · have hfail : (storeQuestions hashFn uuid now storeHashes questions).failed
        = questions.length
          - (questions.filter (fun q => decide (hashFn q.title ∉ storeHashes))).length
          - ((storeQuestions hashFn uuid now storeHashes questions).skipped) := by
      simp only [storeQuestions, List.enum]
      rw [prepared_filter_length hashFn uuid now storeHashes questions 0]
    rw [hfail, hskip]
    omega

end GenQ
